import Mathlib

/-!
Lean model of splendor.cc, a solver that estimates the winnability of a
Splendor "Koh-i-noor" scenario.  The C++ source is embedded shallowly:
machine integers become Nat or Int (with an explicit mod 2^32 wherever the
source relies on 32-bit wraparound), in-place mutation becomes explicit
state passing, randomness is supplied as explicit draw parameters, and a
read past the end of a fixed C array is modelled as Option.none.
-/

namespace Splendor

/-- Card models the C++ struct Card: a 5-entry cost vector, a color tag
where the C++ sentinel value -1 (empty slot) is modelled as none and the
colors 0..4 as some i, and a point value.  In every card the program ever
builds, costs and values are the nonnegative catalogue entries, so they are
modelled as Nat. -/
structure Card where
  cost : Fin 5 → Nat
  type : Option (Fin 5)
  value : Nat
  deriving DecidableEq

/-- defaultCard models the C++ default constructor Card(), which marks the
card as empty via type = -1. -/
def defaultCard : Card where
  cost := fun _ => 0
  type := none
  value := 0

/-- costStep models one iteration of the loop in Card::get_cost.  The
accumulator none models the early `return -1`. -/
def Card.costStep (c : Card) (bonus : Fin 5 → Nat) (acc : Option Nat) (i : Fin 5) :
    Option Nat :=
  match acc with
  | none => none
  | some res =>
    if c.cost i ≤ bonus i then some res
    else if bonus i + 4 < c.cost i then none
    else some (res + (c.cost i - bonus i))

/-- get_cost models Card::get_cost: loop over the five colors accumulating
the deficits, with an early `return -1` when a single deficit exceeds 4,
then `return -1` when the accumulated total exceeds 12. -/
def Card.get_cost (c : Card) (bonus : Fin 5 → Nat) : Int :=
  match ([0, 1, 2, 3, 4] : List (Fin 5)).foldl (c.costStep bonus) (some 0) with
  | none => -1
  | some res => if 12 < res then -1 else (res : Int)

/-- Deck models the C++ struct Deck.  The 4-slot table array is a list that
has length 4 in every state the program builds (slots at or past table_sz
hold cards whose type is the empty sentinel); q holds exactly the live
backlog entries q[0..q_sz), so q_sz is q.length and the C++ q[q_sz-1] is
q.getLast. -/
structure Deck where
  table : List Card
  table_sz : Nat
  q : List Card
  deriving DecidableEq

/-- emptyDeck models the C++ constructor Deck(): table_sz = q_sz = 0, the
four physical table slots default-constructed. -/
def emptyDeck : Deck where
  table := [defaultCard, defaultCard, defaultCard, defaultCard]
  table_sz := 0
  q := []

/-- can_peak_card models Deck::can_peak_card.  The C++ only checks
table_sz < idx before reading table[idx].type, so an index past the 4
physical slots reads out of bounds; that undefined behavior is modelled as
none.  The C++ comparison table[idx].type == -1 is type.isSome here. -/
def Deck.can_peak_card (d : Deck) (idx : Nat) : Option Bool :=
  if d.table_sz < idx then some false
  else
    match d.table.get? idx with
    | some c => some c.type.isSome
    | none => none

/-- pop_card models Deck::pop_card: mark the slot empty, then refill it
from the back of the backlog when the backlog is non-empty. -/
def Deck.pop_card (d : Deck) (idx : Nat) : Deck :=
  let table1 :=
    match d.table.get? idx with
    | some c => d.table.set idx { c with type := none }
    | none => d.table
  match d.q.getLast? with
  | some c => { d with table := table1.set idx c, q := d.q.dropLast }
  | none => { d with table := table1 }

/-- MoveResult is the outcome of Deck::process_move: reject models the
early `return false` paths, on which no out-parameter is written; commit
carries the popped deck, the updated points, tokens_cost, rounds and bonus
vector, and the card written through the card_sequence out-parameter. -/
inductive MoveResult where
  | reject : MoveResult
  | commit : Deck → Nat → Nat → Nat → (Fin 5 → Nat) → Card → MoveResult
  deriving DecidableEq

/-- process_move models Deck::process_move.  none propagates the undefined
out-of-bounds read of can_peak_card (and covers the bonus update at a
sentinel type, which is unreachable because can_peak_card checked it). -/
def Deck.process_move (d : Deck) (x : Nat) (points tokens_cost rounds : Nat)
    (bonus : Fin 5 → Nat) : Option MoveResult :=
  match d.can_peak_card x with
  | none => none
  | some false => some .reject
  | some true =>
    match d.table.get? x with
    | none => none
    | some card =>
      let cost := card.get_cost bonus
      if cost = -1 then some .reject
      else if 28 < rounds + 1 + (tokens_cost + 3 + cost.toNat) / 4 then some .reject
      else
        match card.type with
        | none => none
        | some t =>
          some (.commit (d.pop_card x) (points + card.value) (tokens_cost + cost.toNat)
            (rounds + 1) (Function.update bonus t (bonus t + 1)) card)

/-- State models the C++ struct State restricted to its live data: the
move-token sequence (the first move_sequence_sz bytes of the 40-byte
buffer), the three counters, and the resolved card sequence. -/
structure State where
  move_sequence : List Nat
  points : Nat
  tokens_cost : Nat
  rounds : Nat
  card_sequence : List Card
  deriving DecidableEq

/-- State0 models the C++ constructor State(): zero counters, empty
sequences. -/
def State0 : State where
  move_sequence := []
  points := 0
  tokens_cost := 0
  rounds := 0
  card_sequence := []

/-- PlayCtx is the state threaded through State::play_out: the three deck
copies (play_out takes them by value), the local bonus vector, and the
State being filled in. -/
structure PlayCtx where
  d1 : Deck
  d2 : Deck
  d3 : Deck
  bonus : Fin 5 → Nat
  st : State
  deriving DecidableEq

/-- mkPlayCtx starts a replay: play_out initializes the local bonus vector
to five zeros. -/
def mkPlayCtx (d1 d2 d3 : Deck) (st : State) : PlayCtx :=
  { d1 := d1, d2 := d2, d3 := d3, bonus := fun _ => 0, st := st }

/-- commitState is the effect of a committed move on the State being
filled by play_out: counters overwritten through the pointers, the reduced
token appended to move_sequence, the bought card to card_sequence. -/
def commitState (st : State) (x : Nat) (pts tc rd : Nat) (card : Card) : State :=
  { move_sequence := st.move_sequence ++ [x], points := pts, tokens_cost := tc,
    rounds := rd, card_sequence := st.card_sequence ++ [card] }

/-- dispatch applies the result of one process_move call inside play_out:
a failed call leaves the context unchanged (the C++ short-circuit moves on),
a successful one installs the updated deck via setDeck together with the
new counters, bonus vector and bought card. -/
def dispatch (p : PlayCtx) (x : Nat) (setDeck : PlayCtx → Deck → PlayCtx) :
    Option MoveResult → Option (Bool × PlayCtx)
  | none => none
  | some .reject => some (false, p)
  | some (.commit d pts tc rd b card) =>
    some (true, { setDeck p d with bonus := b, st := commitState p.st x pts tc rd card })

/-- playStep models one iteration of the while loop in State::play_out:
reduce the token mod 16, dispatch on the virtual slot ranges (x < 4 to
deck 1 at slot x, 4 <= x < 8 to deck 2 at slot x-4, x >= 8 to deck 3 at
slot x-8), and on a committed move append the reduced token to
move_sequence and the bought card to card_sequence.  The Bool records
whether the move was committed. -/
def playStep (p : PlayCtx) (m : Nat) : Option (Bool × PlayCtx) :=
  let x := m % 16
  if x < 4 then
    dispatch p x (fun p d => { p with d1 := d })
      (p.d1.process_move x p.st.points p.st.tokens_cost p.st.rounds p.bonus)
  else if x < 8 then
    dispatch p x (fun p d => { p with d2 := d })
      (p.d2.process_move (x - 4) p.st.points p.st.tokens_cost p.st.rounds p.bonus)
  else
    dispatch p x (fun p d => { p with d3 := d })
      (p.d3.process_move (x - 8) p.st.points p.st.tokens_cost p.st.rounds p.bonus)

/-- play_out_aux models the while loop of State::play_out over the
candidate token list. -/
def play_out_aux (p : PlayCtx) : List Nat → Option PlayCtx
  | [] => some p
  | m :: rest =>
    match playStep p m with
    | none => none
    | some (_, p2) => play_out_aux p2 rest

/-- play_out models State::play_out: replay the candidate tokens against
copies of the three decks, accumulating into the given State (the search
always passes a freshly constructed State). -/
def State.play_out (d1 d2 d3 : Deck) (st : State) (cand : List Nat) : Option State :=
  (play_out_aux (mkPlayCtx d1 d2 d3 st) cand).map PlayCtx.st

/-- mutate models State::mutate with the PRNG draws passed explicitly:
mod is the next_int(3) draw selecting the operator, pos the position draw,
tok the next_int(10) token draw, px and py the SWAP position draws.  none
models `return false`, and also a CHANGE whose token draw equals the
replaced token: the C++ inner loop redraws, which at this granularity is a
failed attempt retried with fresh draws.  A mod value outside 0..2 falls
through every branch and returns true with the sequence unchanged, exactly
as the C++ does (such a draw never occurs). -/
def State.mutate (seq : List Nat) (mod pos tok px py : Nat) : Option (List Nat) :=
  if mod = 0 then
    if seq.length = 0 then none
    else if tok = seq.getD pos 0 then none
    else some (seq.set pos tok)
  else if mod = 1 then
    if 30 < seq.length then none
    else some (seq.insertIdx pos tok)
  else if mod = 2 then
    if seq.length < 3 then none
    else if px = py then none
    else if seq.getD px 0 = seq.getD py 0 then none
    else some ((seq.set px (seq.getD py 0)).set py (seq.getD px 0))
  else some seq

/-- swapRemove models the draw step in Deck::fill_up_randomly:
swap(v[x], v.back()); v.pop_back().  It returns the drawn card v[x] and
the remaining pool. -/
def swapRemove (v : List Card) (x : Nat) : Card × List Card :=
  (v.getD x defaultCard, (v.set x (v.getLast?.getD defaultCard)).dropLast)

/-- fillTable models the first while loop of Deck::fill_up_randomly: while
table_sz < 4 and the pool is non-empty, draw a random pool card into the
next table slot.  g n supplies the setup twister's next_int(v.size())
draw (always below v.size() in the program; reduced mod v.length here so
the definition is total), with n advancing by one per draw. -/
def fillTable (g : Nat → Nat) (n : Nat) (d : Deck) (v : List Card) :
    Deck × List Card × Nat :=
  if h : d.table_sz < 4 ∧ v ≠ [] then
    fillTable g (n + 1)
      { d with table := d.table.set d.table_sz (swapRemove v (g n % v.length)).1,
               table_sz := d.table_sz + 1 }
      (swapRemove v (g n % v.length)).2
  else (d, v, n)
termination_by v.length
decreasing_by
  simp only [swapRemove, List.length_dropLast, List.length_set]
  have := List.length_pos.mpr h.2
  omega

/-- fillQ models the second while loop of Deck::fill_up_randomly: while
q_sz < desired_size and the pool is non-empty, append a random pool card
to the backlog. -/
def fillQ (g : Nat → Nat) (n : Nat) (desired : Nat) (d : Deck) (v : List Card) :
    Deck × List Card × Nat :=
  if h : d.q.length < desired ∧ v ≠ [] then
    fillQ g (n + 1) desired { d with q := d.q ++ [(swapRemove v (g n % v.length)).1] }
      (swapRemove v (g n % v.length)).2
  else (d, v, n)
termination_by v.length
decreasing_by
  simp only [swapRemove, List.length_dropLast, List.length_set]
  have := List.length_pos.mpr h.2
  omega

/-- fill_up_randomly models Deck::fill_up_randomly: fill the table up to 4
cards and then the backlog up to desired_size, drawing without
replacement from the pool v.  It returns the filled deck, the remaining
pool and the advanced draw index. -/
def Deck.fill_up_randomly (d : Deck) (desired : Nat) (v : List Card)
    (g : Nat → Nat) (n : Nat) : Deck × List Card × Nat :=
  fillQ g (fillTable g n d v).2.2 desired (fillTable g n d v).1 (fillTable g n d v).2.1

/-- StepDraws packages the randomness one annealing iteration consumes:
the five mutation draws and the acceptance outcome of the comparison
exp((refined.points - st.points)/temp) > next_float(), which involves the
floating-point temperature schedule and is abstracted as a Bool. -/
structure StepDraws where
  mod : Nat
  pos : Nat
  tok : Nat
  px : Nat
  py : Nat
  accept : Bool

/-- annealStep models one iteration of the annealing loop of
play_randomly acting on the pair (incumbent st, best_state): clone the
incumbent, mutate its sequence (a failed mutation changes nothing: the
C++ retries with fresh draws, modelled as later trace elements), replay it
from a fresh State, record the refined State in best_state exactly when
its points strictly exceed the best points, and adopt it as incumbent when
accepted.  A replay returning none (the out-of-bounds read) never happens
for the in-range draws the twister produces; it maps to an unchanged
pair. -/
def annealStep (d1 d2 d3 : Deck) (acc : State × State) (p : StepDraws) : State × State :=
  match State.mutate acc.1.move_sequence p.mod p.pos p.tok p.px p.py with
  | none => acc
  | some candSeq =>
    match State.play_out d1 d2 d3 State0 candSeq with
    | none => acc
    | some refined =>
      (if p.accept then refined else acc.1,
       if acc.2.points < refined.points then refined else acc.2)

/-- play_randomly models one annealing run of play_randomly: a fresh
incumbent State, then the iterations folded over the draw trace (the
temperature schedule fixes 200000 iterations in the C++, abstracted as the
trace length); it returns the updated best_state. -/
def play_randomly (d1 d2 d3 : Deck) (trace : List StepDraws) (best : State) : State :=
  (trace.foldl (annealStep d1 d2 d3) (State0, best)).2

/-- play_single_setting models play_single_setting: reverse the two known
backlogs once, then run play_randomly with a fresh incumbent per run while
best_state persists across the runs (the C++ fixes the run count at 10;
the trace list supplies one trace per run). -/
def play_single_setting (d1 d2 d3 : Deck) (traces : List (List StepDraws))
    (best : State) : State :=
  let d1r := { d1 with q := d1.q.reverse }
  let d2r := { d2 with q := d2.q.reverse }
  traces.foldl (fun b tr => play_randomly d1r d2r d3 tr b) best

/-- play_randomized_deck models play_randomized_deck, with the catalogue
subtraction (an external concern) supplied as the two remaining-card
pools: fill both decks randomly from the setup draws g, overwrite the
global best_state with a fresh State — prior, the best of the previous
completion, is discarded — and run the ten searches. -/
def play_randomized_deck (prior : State) (d1 d2 d3 : Deck) (pool1 pool2 : List Card)
    (g : Nat → Nat) (n : Nat) (traces : List (List StepDraws)) : State :=
  let r1 := d1.fill_up_randomly 25 pool1 g n
  let r2 := d2.fill_up_randomly 25 pool2 g r1.2.2
  play_single_setting r1.1 r2.1 d3 traces State0

/-- Twister models the C++ struct Twister: the 624-word unsigned int state
array is a function on the indices 0..623 the program uses (reads reduce
mod 2^32 to model the 32-bit storage), plus the batch pointer. -/
structure Twister where
  tab : Nat → Nat
  ptr : Nat

/-- temper models the tempering in Twister::extract_number; the left
shifts are masked by 32-bit constants, so the result stays below 2^32. -/
def temper (y0 : Nat) : Nat :=
  let y1 := y0 ^^^ (y0 >>> 11)
  let y2 := y1 ^^^ ((y1 <<< 7) &&& 0x9D2C5680)
  let y3 := y2 ^^^ ((y2 <<< 15) &&& 0xEFC60000)
  y3 ^^^ (y3 >>> 18)

/-- twistStep models one iteration of the loops in
Twister::generate_numbers, updating entry i in place; the three loop
ranges differ only in where val is read (i+M for i < N-M, i+M-N for
N-M <= i < N-1, M-1 for i = N-1) and where s1 is read (i+1, or 0 at the
end), with N = 624 and M = 397. -/
def twistStep (tab : Nat → Nat) (i : Nat) : Nat → Nat :=
  let val := if i < 227 then tab (i + 397) % 2 ^ 32
             else if i < 623 then tab (i - 227) % 2 ^ 32
             else tab 396 % 2 ^ 32
  let s1 := if i < 623 then tab (i + 1) % 2 ^ 32 else tab 0 % 2 ^ 32
  let y := (tab i % 2 ^ 32 &&& 0x80000000) ||| (s1 &&& 0x7FFFFFFF)
  let nv := val ^^^ (y >>> 1) ^^^ (if s1 % 2 = 1 then 0x9908B0DF else 0)
  fun j => if j = i then nv else tab j

/-- generate_numbers models Twister::generate_numbers: update all 624
words in index order and reset the pointer. -/
def Twister.generate_numbers (s : Twister) : Twister :=
  { tab := (List.range 624).foldl twistStep s.tab, ptr := 0 }

/-- next_int models Twister::next_int(): regenerate when the batch is
exhausted, then return the tempered word at the pointer (the unsigned
32-bit value whose bit pattern the C++ int return carries) and advance. -/
def Twister.next_int (s : Twister) : Nat × Twister :=
  let s2 := if 624 ≤ s.ptr then s.generate_numbers else s
  (temper (s2.tab s2.ptr % 2 ^ 32), { s2 with ptr := s2.ptr + 1 })

/-- next_float models Twister::next_float in exact arithmetic: the next
tempered word masked to its low 31 bits (& 0x7FFFFFFF), scaled by the
literal 4.656612873077392578125e-10, which is exactly 2^-31.  (The C++
float multiply additionally rounds the 31-bit integer to 24-bit float
precision; the claims about which bits are used are settled in exact
arithmetic.) -/
def Twister.next_float (s : Twister) : ℚ × Twister :=
  ((((s.next_int.1 &&& 0x7FFFFFFF) : Nat) : ℚ) / 2 ^ 31, s.next_int.2)

/-- smear models the bit smearing in Twister::next_int(int max):
used |= used >> 1; ... used |= used >> 16. -/
def smear (u0 : Nat) : Nat :=
  let u1 := u0 ||| (u0 >>> 1)
  let u2 := u1 ||| (u1 >>> 2)
  let u3 := u2 ||| (u2 >>> 4)
  let u4 := u3 ||| (u3 >>> 8)
  u4 ||| (u4 >>> 16)

/-- next_int_bounded models Twister::next_int(int max), the bounded draw
(the two C++ overloads of next_int get distinct Lean names): mask each raw
draw with smear(max-1) and reject while the masked value is >= max.  The
C++ do-while loop has no iteration bound; fuel makes the recursion total,
with none modelling exhausting the fuel before a draw is accepted. -/
def Twister.next_int_bounded : Nat → Twister → Nat → Option (Nat × Twister)
  | 0, _, _ => none
  | fuel + 1, s, mx =>
    if mx ≤ (s.next_int.1 &&& smear (mx - 1)) then
      Twister.next_int_bounded fuel s.next_int.2 mx
    else some (s.next_int.1 &&& smear (mx - 1), s.next_int.2)

/-- twC8 is a concrete Twister state: word 0 holds 1, the pointer is at
the start of the batch. -/
def twC8 : Twister := { tab := fun i => if i = 0 then 1 else 0, ptr := 0 }

/-- cardC2 is a concrete free card (all costs zero) used in concrete
replays. -/
def cardC2 : Card := Card.mk ![0, 0, 0, 0, 0] (some 0) 5

/-- deckC2 is a concrete deck holding cardC2 in table slot 0. -/
def deckC2 : Deck :=
  { table := [cardC2, defaultCard, defaultCard, defaultCard], table_sz := 1, q := [] }

/-- cardC3 is a concrete card of token cost 12 whose color (white) never
discounts its own cost colors. -/
def cardC3 : Card := Card.mk ![4, 4, 4, 0, 0] (some 4) 0

/-- deckC3 holds seven copies of cardC3: one on the table, six in the
backlog, so seven successive purchases of slot 0 are possible. -/
def deckC3 : Deck :=
  { table := [cardC3, defaultCard, defaultCard, defaultCard], table_sz := 1,
    q := [cardC3, cardC3, cardC3, cardC3, cardC3, cardC3] }

/-- stC4 is the State produced by replaying [0] against deckC2 from a
fresh State. -/
def stC4 : State :=
  { move_sequence := [0], points := 5, tokens_cost := 0, rounds := 1,
    card_sequence := [cardC2] }

/-- p2C3 is the PlayCtx produced by one committed playStep of token 0
against deckC2 from a fresh context. -/
def p2C3 : PlayCtx :=
  { d1 := { table := [Card.mk ![0, 0, 0, 0, 0] none 5, defaultCard, defaultCard, defaultCard],
            table_sz := 1, q := [] },
    d2 := emptyDeck, d3 := emptyDeck,
    bonus := Function.update (fun _ => 0) 0 1, st := stC4 }

lemma foldl_costStep_none (c : Card) (bonus : Fin 5 → Nat) (l : List (Fin 5)) :
    l.foldl (c.costStep bonus) none = none := by
  induction l with
  | nil => rfl
  | cons i t ih => simpa [Card.costStep] using ih

lemma foldl_costStep_some (c : Card) (bonus : Fin 5 → Nat) (l : List (Fin 5)) (r : Nat) :
    l.foldl (c.costStep bonus) (some r) =
      if ∀ i ∈ l, c.cost i ≤ bonus i + 4 then
        some (r + (l.map (fun i => c.cost i - bonus i)).sum)
      else none := by
  induction l generalizing r with
  | nil => simp
  | cons i t ih =>
    simp only [List.foldl_cons, Card.costStep, List.forall_mem_cons, List.map_cons,
      List.sum_cons]
    by_cases h1 : c.cost i ≤ bonus i
    · rw [if_pos h1, ih r]
      have hz : c.cost i - bonus i = 0 := by omega
      split_ifs <;> simp_all <;> omega
    · rw [if_neg h1]
      by_cases h2 : bonus i + 4 < c.cost i
      · rw [if_pos h2, foldl_costStep_none]
        have : ¬(c.cost i ≤ bonus i + 4) := by omega
        simp [this]
      · rw [if_neg h2, ih]
        have hle : c.cost i ≤ bonus i + 4 := by omega
        split_ifs <;> simp_all <;> omega

/-- C1: Card::get_cost returns -1 (infeasible) exactly when some per-color
deficit (cost minus bonus, truncated at zero) exceeds 4 or the summed
deficit exceeds 12, and otherwise returns exactly the summed deficit. -/
theorem c1_get_cost_deficits (c : Card) (bonus : Fin 5 → Nat) :
    c.get_cost bonus =
      if (4 < c.cost 0 - bonus 0 ∨ 4 < c.cost 1 - bonus 1 ∨ 4 < c.cost 2 - bonus 2 ∨
            4 < c.cost 3 - bonus 3 ∨ 4 < c.cost 4 - bonus 4) ∨
          12 < (c.cost 0 - bonus 0) + (c.cost 1 - bonus 1) + (c.cost 2 - bonus 2) +
            (c.cost 3 - bonus 3) + (c.cost 4 - bonus 4) then (-1 : Int)
      else (((c.cost 0 - bonus 0) + (c.cost 1 - bonus 1) + (c.cost 2 - bonus 2) +
            (c.cost 3 - bonus 3) + (c.cost 4 - bonus 4) : Nat) : Int) := by
  rw [Card.get_cost, foldl_costStep_some]
  simp only [List.forall_mem_cons, List.not_mem_nil, false_implies, forall_const, and_true,
    List.map_cons, List.map_nil, List.sum_cons, List.sum_nil, add_zero, zero_add]
  split_ifs with h1 h2 h3
  · have h12 : 12 < c.cost 0 - bonus 0 + (c.cost 1 - bonus 1 +
        (c.cost 2 - bonus 2 + (c.cost 3 - bonus 3 + (c.cost 4 - bonus 4)))) := by omega
    show (if 12 < c.cost 0 - bonus 0 + (c.cost 1 - bonus 1 +
        (c.cost 2 - bonus 2 + (c.cost 3 - bonus 3 + (c.cost 4 - bonus 4)))) then (-1 : Int)
      else _) = -1
    rw [if_pos h12]
  · have h12 : ¬ (12 < c.cost 0 - bonus 0 + (c.cost 1 - bonus 1 +
        (c.cost 2 - bonus 2 + (c.cost 3 - bonus 3 + (c.cost 4 - bonus 4))))) := by omega
    show (if 12 < c.cost 0 - bonus 0 + (c.cost 1 - bonus 1 +
        (c.cost 2 - bonus 2 + (c.cost 3 - bonus 3 + (c.cost 4 - bonus 4)))) then (-1 : Int)
      else _) = _
    rw [if_neg h12]
    omega
  · rfl
  · exfalso
    simp only [not_or, not_lt] at h3
    omega

/-- C1 witness: the theorem evaluated at a concrete card and bonus vector. -/
theorem c1_get_cost_deficits_witness :
    (Card.mk ![3, 2, 0, 0, 0] (some 0) 1).get_cost ![1, 0, 0, 0, 0] = (4 : Int) := by
  have h := c1_get_cost_deficits (Card.mk ![3, 2, 0, 0, 0] (some 0) 1) ![1, 0, 0, 0, 0]
  simpa using h

lemma process_move_commit_eq (d : Deck) (x pts tc rd : Nat) (bonus : Fin 5 → Nat)
    (d2 : Deck) (p2 t2 r2 : Nat) (b2 : Fin 5 → Nat) (card : Card)
    (h : d.process_move x pts tc rd bonus = some (.commit d2 p2 t2 r2 b2 card)) :
    d.table.get? x = some card ∧ d2 = d.pop_card x ∧ p2 = pts + card.value ∧
      t2 = tc + (card.get_cost bonus).toNat ∧ r2 = rd + 1 ∧
      rd + 1 + (tc + 3 + (card.get_cost bonus).toNat) / 4 ≤ 28 := by
  rw [Deck.process_move] at h
  split at h
  · exact absurd h (by simp)
  · exact absurd h (by simp)
  · split at h
    · exact absurd h (by simp)
    · rename_i card0 hget
      dsimp only [] at h
      split_ifs at h with hc hb
      · exact absurd h (by simp)
      · exact absurd h (by simp)
      · split at h
        · exact absurd h (by simp)
        · simp only [Option.some.injEq, MoveResult.commit.injEq] at h
          obtain ⟨hd, hp, ht, hr, _, hcard⟩ := h
          subst hcard
          refine ⟨hget, hd.symm, hp.symm, ht.symm, hr.symm, ?_⟩
          omega

lemma dispatch_eq_false (p : PlayCtx) (x : Nat) (f : PlayCtx → Deck → PlayCtx)
    (o : Option MoveResult) (p2 : PlayCtx) (h : dispatch p x f o = some (false, p2)) :
    p2 = p := by
  match o with
  | none => simp [dispatch] at h
  | some .reject =>
    simp only [dispatch, Option.some.injEq, Prod.mk.injEq] at h
    exact h.2.symm
  | some (.commit d pts tc rd b card) =>
    simp [dispatch] at h

lemma dispatch_eq_true (p : PlayCtx) (x : Nat) (f : PlayCtx → Deck → PlayCtx)
    (o : Option MoveResult) (p2 : PlayCtx) (h : dispatch p x f o = some (true, p2)) :
    ∃ d pts tc rd b card, o = some (.commit d pts tc rd b card) ∧
      p2 = { f p d with bonus := b, st := commitState p.st x pts tc rd card } := by
  match o with
  | none => simp [dispatch] at h
  | some .reject => simp [dispatch] at h
  | some (.commit d pts tc rd b card) =>
    simp only [dispatch, Option.some.injEq, Prod.mk.injEq] at h
    exact ⟨d, pts, tc, rd, b, card, rfl, h.2.symm⟩

lemma playStep_false (p : PlayCtx) (m : Nat) (p2 : PlayCtx)
    (h : playStep p m = some (false, p2)) : p2 = p := by
  rw [playStep] at h
  split_ifs at h <;> exact dispatch_eq_false _ _ _ _ _ h

lemma playStep_commit (p : PlayCtx) (m : Nat) (p2 : PlayCtx)
    (h : playStep p m = some (true, p2)) :
    ∃ card cost,
      p2.st.points = p.st.points + card.value ∧
      p2.st.tokens_cost = p.st.tokens_cost + cost ∧
      p2.st.rounds = p.st.rounds + 1 ∧
      p2.st.move_sequence = p.st.move_sequence ++ [m % 16] ∧
      p2.st.card_sequence = p.st.card_sequence ++ [card] ∧
      p.st.rounds + 1 + (p.st.tokens_cost + 3 + cost) / 4 ≤ 28 := by
  rw [playStep] at h
  split_ifs at h with h1 h2
  · obtain ⟨d, pts, tc, rd, b, card, ho, hp2⟩ := dispatch_eq_true _ _ _ _ _ h
    obtain ⟨_, _, hp, ht, hr, hbud⟩ := process_move_commit_eq _ _ _ _ _ _ _ _ _ _ _ _ ho
    subst hp2
    exact ⟨card, (card.get_cost p.bonus).toNat, by simp [commitState, hp, ht, hr, hbud]⟩
  · obtain ⟨d, pts, tc, rd, b, card, ho, hp2⟩ := dispatch_eq_true _ _ _ _ _ h
    obtain ⟨_, _, hp, ht, hr, hbud⟩ := process_move_commit_eq _ _ _ _ _ _ _ _ _ _ _ _ ho
    subst hp2
    exact ⟨card, (card.get_cost p.bonus).toNat, by simp [commitState, hp, ht, hr, hbud]⟩
  · obtain ⟨d, pts, tc, rd, b, card, ho, hp2⟩ := dispatch_eq_true _ _ _ _ _ h
    obtain ⟨_, _, hp, ht, hr, hbud⟩ := process_move_commit_eq _ _ _ _ _ _ _ _ _ _ _ _ ho
    subst hp2
    exact ⟨card, (card.get_cost p.bonus).toNat, by simp [commitState, hp, ht, hr, hbud]⟩

lemma play_out_aux_mono (cand : List Nat) :
    ∀ p p2 : PlayCtx, play_out_aux p cand = some p2 →
      p.st.points ≤ p2.st.points ∧ p.st.tokens_cost ≤ p2.st.tokens_cost ∧
      p.st.rounds ≤ p2.st.rounds ∧
      p2.st.rounds + p.st.move_sequence.length =
        p.st.rounds + p2.st.move_sequence.length ∧
      p2.st.card_sequence.length + p.st.move_sequence.length =
        p2.st.move_sequence.length + p.st.card_sequence.length ∧
      p2.st.move_sequence.length ≤ p.st.move_sequence.length + cand.length := by
  induction cand with
  | nil =>
    intro p p2 h
    simp only [play_out_aux, Option.some.injEq] at h
    subst h
    omega
  | cons m rest ih =>
    intro p p2 h
    simp only [play_out_aux] at h
    cases hs : playStep p m with
    | none => rw [hs] at h; exact absurd h (by simp)
    | some bp =>
      rw [hs] at h
      obtain ⟨b, p1⟩ := bp
      cases b with
      | false =>
        have hp := playStep_false _ _ _ hs
        subst hp
        have IH := ih _ _ h
        simp only [List.length_cons]
        omega
      | true =>
        obtain ⟨card, cost, hp, ht, hr, hms, hcs, _⟩ := playStep_commit _ _ _ hs
        have IH := ih _ _ h
        have hms2 : p1.st.move_sequence.length = p.st.move_sequence.length + 1 := by
          rw [hms]; simp
        have hcs2 : p1.st.card_sequence.length = p.st.card_sequence.length + 1 := by
          rw [hcs]; simp
        simp only [List.length_cons]
        omega

lemma play_out_aux_tokens (cand : List Nat) :
    ∀ p p2 : PlayCtx, play_out_aux p cand = some p2 →
      ∀ t ∈ p2.st.move_sequence, t ∈ p.st.move_sequence ∨ ∃ m ∈ cand, t = m % 16 := by
  induction cand with
  | nil =>
    intro p p2 h t ht
    simp only [play_out_aux, Option.some.injEq] at h
    subst h
    exact .inl ht
  | cons m rest ih =>
    intro p p2 h t ht
    simp only [play_out_aux] at h
    cases hs : playStep p m with
    | none => rw [hs] at h; exact absurd h (by simp)
    | some bp =>
      rw [hs] at h
      obtain ⟨b, p1⟩ := bp
      cases b with
      | false =>
        have hp := playStep_false _ _ _ hs
        subst hp
        rcases ih _ _ h t ht with hin | ⟨m2, hm2, he⟩
        · exact .inl hin
        · exact .inr ⟨m2, by simp [hm2], he⟩
      | true =>
        obtain ⟨card, cost, _, _, _, hms, _, _⟩ := playStep_commit _ _ _ hs
        rcases ih _ _ h t ht with hin | ⟨m2, hm2, he⟩
        · rw [hms] at hin
          rcases List.mem_append.mp hin with hin2 | hin2
          · exact .inl hin2
          · exact .inr ⟨m, by simp, by simpa using hin2⟩
        · exact .inr ⟨m2, by simp [hm2], he⟩

lemma play_out_aux_high_tokens (cand : List Nat) :
    ∀ p : PlayCtx, (∀ m ∈ cand, 12 ≤ m % 16) → p.d3.table_sz < 4 →
      play_out_aux p cand = some p := by
  induction cand with
  | nil => intro p _ _; rfl
  | cons m rest ih =>
    intro p hall h3
    have hx : 12 ≤ m % 16 := hall m (by simp)
    have hx16 : m % 16 < 16 := Nat.mod_lt _ (by omega)
    have hpk : p.d3.can_peak_card (m % 16 - 8) = some false := by
      rw [Deck.can_peak_card, if_pos (by omega)]
    have hstep : playStep p m = some (false, p) := by
      rw [playStep]
      rw [if_neg (by omega), if_neg (by omega), Deck.process_move, hpk]
      rfl
    simp only [play_out_aux, hstep]
    exact ih p (fun m2 hm2 => hall m2 (by simp [hm2])) h3

lemma playStep_decks (p : PlayCtx) (m : Nat) (b : Bool) (p2 : PlayCtx)
    (h : playStep p m = some (b, p2)) :
    (m % 16 < 4 → p2.d2 = p.d2 ∧ p2.d3 = p.d3) ∧
    (4 ≤ m % 16 → m % 16 < 8 → p2.d1 = p.d1 ∧ p2.d3 = p.d3) ∧
    (8 ≤ m % 16 → p2.d1 = p.d1 ∧ p2.d2 = p.d2) := by
  cases b with
  | false =>
    have hp := playStep_false _ _ _ h
    subst hp
    exact ⟨fun _ => ⟨rfl, rfl⟩, fun _ _ => ⟨rfl, rfl⟩, fun _ => ⟨rfl, rfl⟩⟩
  | true =>
    rw [playStep] at h
    split_ifs at h with h1 h2
    · obtain ⟨d, pts, tc, rd, bb, card, _, hp2⟩ := dispatch_eq_true _ _ _ _ _ h
      subst hp2
      exact ⟨fun _ => ⟨rfl, rfl⟩, fun hge _ => absurd h1 (by omega),
        fun hge => absurd h1 (by omega)⟩
    · obtain ⟨d, pts, tc, rd, bb, card, _, hp2⟩ := dispatch_eq_true _ _ _ _ _ h
      subst hp2
      exact ⟨fun hlt => absurd hlt h1, fun _ _ => ⟨rfl, rfl⟩,
        fun hge => absurd h2 (by omega)⟩
    · obtain ⟨d, pts, tc, rd, bb, card, _, hp2⟩ := dispatch_eq_true _ _ _ _ _ h
      subst hp2
      exact ⟨fun hlt => absurd hlt h1, fun _ hlt => absurd hlt h2,
        fun _ => ⟨rfl, rfl⟩⟩

/-- C2 counterexample: the claim says a candidate consisting only of
tokens >= 12 replays to an empty resolved sequence for any deck state, but
play_out reduces tokens mod 16 first, so token 16 behaves like token 0 and
buys the free card in deck 1 slot 0: the resolved sequence has length 1. -/
theorem c2_counterexample :
    12 ≤ 16 ∧
      (State.play_out deckC2 emptyDeck emptyDeck State0 [16]).map
        (fun s => s.move_sequence.length) = some 1 := by decide

/-- C2 (amended): play_out reduces each token mod 16 before dispatching;
reduced tokens 12..15 address deck 3 at out-of-range slots 4..7 and are
rejected whenever deck 3's table is not full, so a candidate of only such
tokens replays to the unchanged starting State; committed tokens in the
deck-1 (deck-2, deck-3) range leave the other two decks untouched. -/
theorem c2_high_tokens_rejected :
    (∀ (d1 d2 d3 : Deck) (st : State) (cand : List Nat),
        (∀ m ∈ cand, 12 ≤ m % 16) → d3.table_sz < 4 →
        State.play_out d1 d2 d3 st cand = some st) ∧
    (∀ (p : PlayCtx) (m : Nat) (b : Bool) (p2 : PlayCtx),
        playStep p m = some (b, p2) →
        (m % 16 < 4 → p2.d2 = p.d2 ∧ p2.d3 = p.d3) ∧
        (4 ≤ m % 16 → m % 16 < 8 → p2.d1 = p.d1 ∧ p2.d3 = p.d3) ∧
        (8 ≤ m % 16 → p2.d1 = p.d1 ∧ p2.d2 = p.d2)) := by
  constructor
  · intro d1 d2 d3 st cand hall h3
    rw [State.play_out, play_out_aux_high_tokens cand _ hall h3]
    rfl
  · intro p m b p2 h
    exact playStep_decks p m b p2 h

/-- C2 witness: the amended theorem applied to the all-high candidate [12]
against empty decks, and to a rejected step. -/
theorem c2_high_tokens_rejected_witness :
    State.play_out emptyDeck emptyDeck emptyDeck State0 [12] = some State0 ∧
    ((mkPlayCtx emptyDeck emptyDeck emptyDeck State0).d2 = emptyDeck ∧
      (mkPlayCtx emptyDeck emptyDeck emptyDeck State0).d3 = emptyDeck) := by
  have h := c2_high_tokens_rejected
  refine ⟨h.1 emptyDeck emptyDeck emptyDeck State0 [12] (by decide) (by decide), ?_⟩
  have h2 := (h.2 (mkPlayCtx emptyDeck emptyDeck emptyDeck State0) 0 false
      (mkPlayCtx emptyDeck emptyDeck emptyDeck State0) (by decide)).1 (by decide)
  exact h2

/-- C3 counterexample: with seven cost-12 purchases of deckC3 slot 0, the
seventh commit has prior rounds 6 and prior tokens_cost 72 and move cost
12, and 6 + 1 + ceil((72 + 3 + 12)/4) = 29 > 28 — yet the code commits it
(rounds reaches 7), because the code computes the integer (floor) division
(72 + 3 + 12)/4 = 21, not the ceiling 22 the claim states. -/
theorem c3_counterexample :
    (State.play_out deckC3 emptyDeck emptyDeck State0 [0, 0, 0, 0, 0, 0]).map
        (fun s => (s.rounds, s.tokens_cost)) = some (6, 72) ∧
    (State.play_out deckC3 emptyDeck emptyDeck State0 [0, 0, 0, 0, 0, 0, 0]).map
        (fun s => (s.rounds, s.tokens_cost)) = some (7, 84) ∧
    28 < 6 + 1 + (72 + 3 + (84 - 72) + 3) / 4 := by decide

/-- C3 (amended): replay never commits a move for which rounds + 1 plus
the integer (floor) division (tokens_cost + 3 + cost)/4 — equivalently
rounds + 1 + ceil((tokens_cost + cost)/4) — exceeds 28, where rounds and
tokens_cost are the accumulated values before the move and cost is the
move's computed token cost; every move failing that test (with a feasible
cost and a peekable slot) is rejected. -/
theorem c3_round_budget :
    (∀ (p : PlayCtx) (m : Nat) (p2 : PlayCtx), playStep p m = some (true, p2) →
        p.st.rounds + 1 +
          (p.st.tokens_cost + 3 + (p2.st.tokens_cost - p.st.tokens_cost)) / 4 ≤ 28) ∧
    (∀ (d : Deck) (x pts tc rd : Nat) (bonus : Fin 5 → Nat) (card : Card),
        d.can_peak_card x = some true → d.table.get? x = some card →
        card.get_cost bonus ≠ -1 →
        28 < rd + 1 + (tc + 3 + (card.get_cost bonus).toNat) / 4 →
        d.process_move x pts tc rd bonus = some .reject) := by
  constructor
  · intro p m p2 h
    obtain ⟨card, cost, _, ht, _, _, _, hbud⟩ := playStep_commit p m p2 h
    have : p2.st.tokens_cost - p.st.tokens_cost = cost := by omega
    rw [this]
    exact hbud
  · intro d x pts tc rd bonus card hpk hget hcost hbud
    rw [Deck.process_move, hpk, hget]
    dsimp only []
    rw [if_neg hcost, if_pos hbud]

/-- C3 witness: the amended theorem applied to a concrete committed move
and to a concrete budget-rejected move. -/
theorem c3_round_budget_witness :
    (State0.rounds + 1 + (State0.tokens_cost + 3 + (stC4.tokens_cost - State0.tokens_cost)) / 4 ≤ 28) ∧
    deckC2.process_move 0 0 0 28 (fun _ => 0) = some .reject := by
  have h := c3_round_budget
  constructor
  · have h1 := h.1 (mkPlayCtx deckC2 emptyDeck emptyDeck State0) 0 p2C3 (by decide)
    exact h1
  · exact h.2 deckC2 0 0 0 28 (fun _ => 0) cardC2 (by decide) (by decide) (by decide) (by decide)

/-- C4: during replay points, token cost and rounds never decrease from
any intermediate context to any later one (hence from token to token), and
a replay started from a fresh State — as the search always starts it —
ends with rounds equal to the number of committed tokens, which is the
length of the resolved move sequence and of the resolved card sequence. -/
theorem c4_replay_counters :
    (∀ (cand : List Nat) (p p2 : PlayCtx), play_out_aux p cand = some p2 →
        p.st.points ≤ p2.st.points ∧ p.st.tokens_cost ≤ p2.st.tokens_cost ∧
        p.st.rounds ≤ p2.st.rounds) ∧
    (∀ (d1 d2 d3 : Deck) (cand : List Nat) (st2 : State),
        State.play_out d1 d2 d3 State0 cand = some st2 →
        st2.rounds = st2.move_sequence.length ∧
        st2.move_sequence.length = st2.card_sequence.length) := by
  constructor
  · intro cand p p2 h
    obtain ⟨a, b, c, _, _, _⟩ := play_out_aux_mono cand p p2 h
    exact ⟨a, b, c⟩
  · intro d1 d2 d3 cand st2 h
    rw [State.play_out] at h
    cases haux : play_out_aux (mkPlayCtx d1 d2 d3 State0) cand with
    | none => rw [haux] at h; exact absurd h (by simp)
    | some p2 =>
      rw [haux] at h
      simp only [Option.map_some', Option.some.injEq] at h
      obtain ⟨_, _, _, h4, h5, _⟩ := play_out_aux_mono cand _ p2 haux
      simp only [mkPlayCtx, State0, List.length_nil] at h4 h5
      subst h
      omega

/-- C4 witness: the theorem applied to the concrete committing replay of
[0] against deckC2 and to a concrete intermediate step. -/
theorem c4_replay_counters_witness :
    ((mkPlayCtx deckC2 emptyDeck emptyDeck State0).st.points ≤ p2C3.st.points ∧
      (mkPlayCtx deckC2 emptyDeck emptyDeck State0).st.tokens_cost ≤ p2C3.st.tokens_cost ∧
      (mkPlayCtx deckC2 emptyDeck emptyDeck State0).st.rounds ≤ p2C3.st.rounds) ∧
    (stC4.rounds = stC4.move_sequence.length ∧
      stC4.move_sequence.length = stC4.card_sequence.length) := by
  have h := c4_replay_counters
  exact ⟨h.1 [0] (mkPlayCtx deckC2 emptyDeck emptyDeck State0) p2C3 (by decide),
    h.2 deckC2 emptyDeck emptyDeck [0] stC4 (by decide)⟩

/-- C5: a rejected token (empty slot, infeasible cost or failed budget
test are the only sources of the false flag) leaves the whole replay
context — counters, bonus vector, all three decks and both resolved
sequences — exactly as it was, and replay continues with the next token. -/
theorem c5_reject_no_effect :
    ∀ (p : PlayCtx) (m : Nat) (p2 : PlayCtx), playStep p m = some (false, p2) →
      p2 = p ∧ ∀ rest : List Nat, play_out_aux p (m :: rest) = play_out_aux p rest := by
  intro p m p2 h
  have hp := playStep_false p m p2 h
  refine ⟨hp, fun rest => ?_⟩
  simp only [play_out_aux, h]
  rw [hp]

/-- C5 witness: the theorem applied to token 0 against empty decks (the
slot is empty, so the move is rejected). -/
theorem c5_reject_no_effect_witness :
    mkPlayCtx emptyDeck emptyDeck emptyDeck State0 =
      mkPlayCtx emptyDeck emptyDeck emptyDeck State0 ∧
    play_out_aux (mkPlayCtx emptyDeck emptyDeck emptyDeck State0) [0, 5] =
      play_out_aux (mkPlayCtx emptyDeck emptyDeck emptyDeck State0) [5] := by
  have h := c5_reject_no_effect (mkPlayCtx emptyDeck emptyDeck emptyDeck State0) 0
      (mkPlayCtx emptyDeck emptyDeck emptyDeck State0) (by decide)
  exact ⟨h.1, h.2 [5]⟩

lemma getD_lt_ten (seq : List Nat) (h : ∀ t ∈ seq, t < 10) (i : Nat) :
    seq.getD i 0 < 10 := by
  by_cases hi : i < seq.length
  · have hg : seq.getD i 0 = seq[i] := by
      simp [List.getD_eq_getElem?_getD, List.getElem?_eq_getElem hi]
    rw [hg]
    exact h _ (List.getElem_mem hi)
  · rw [List.getD_eq_default _ _ (by omega)]
    omega

/-- C9: a successful mutation with in-range draws preserves the search
invariant — length at most 31 and every token below 10 — because INSERT
applies only at length <= 30 and adds one token while CHANGE and SWAP
preserve length; and replay never produces a resolved sequence longer than
its candidate, with all resolved tokens below 10.  Since every handled
sequence therefore stays within 31 entries, the fixed 40-entry buffers are
never indexed out of range. -/
theorem c9_search_bounds :
    (∀ (seq : List Nat) (mod pos tok px py : Nat) (seq2 : List Nat),
        seq.length ≤ 31 → (∀ t ∈ seq, t < 10) → tok < 10 → pos ≤ seq.length →
        State.mutate seq mod pos tok px py = some seq2 →
        seq2.length ≤ 31 ∧ ∀ t ∈ seq2, t < 10) ∧
    (∀ (d1 d2 d3 : Deck) (cand : List Nat) (st2 : State),
        (∀ m ∈ cand, m < 10) →
        State.play_out d1 d2 d3 State0 cand = some st2 →
        st2.move_sequence.length ≤ cand.length ∧ ∀ t ∈ st2.move_sequence, t < 10) := by
  constructor
  · intro seq mod pos tok px py seq2 hlen h10 htok hpos h
    rw [State.mutate] at h
    split_ifs at h with h0 hA hB h1 hC h2 hD hE hF
    all_goals simp only [Option.some.injEq] at h
    all_goals subst h
    all_goals refine ⟨?_, fun t ht => ?_⟩
    all_goals first
      | exact hlen
      | exact h10 t ht
      | simpa using hlen
      | (rw [List.length_insertIdx _ _ hpos]
         omega)
      | (rcases (List.mem_insertIdx hpos).mp ht with h3 | h3
         · omega
         · exact h10 t h3)
      | (rcases List.mem_or_eq_of_mem_set ht with h3 | h3
         · exact h10 t h3
         · omega)
      | (rcases List.mem_or_eq_of_mem_set ht with h3 | h3
         · rcases List.mem_or_eq_of_mem_set h3 with h4 | h4
           · exact h10 t h4
           · rw [h4]
             exact getD_lt_ten seq h10 py
         · rw [h3]
           exact getD_lt_ten seq h10 px)
  · intro d1 d2 d3 cand st2 hcand h
    rw [State.play_out] at h
    cases haux : play_out_aux (mkPlayCtx d1 d2 d3 State0) cand with
    | none => rw [haux] at h; exact absurd h (by simp)
    | some p2 =>
      rw [haux] at h
      simp only [Option.map_some', Option.some.injEq] at h
      subst h
      obtain ⟨_, _, _, _, _, hl⟩ := play_out_aux_mono cand _ _ haux
      have htk := play_out_aux_tokens cand _ _ haux
      constructor
      · simpa [mkPlayCtx, State0] using hl
      · intro t ht
        rcases htk t ht with hin | ⟨m, hm, he⟩
        · simp [mkPlayCtx, State0] at hin
        · have hm10 : m < 10 := hcand m hm
          subst he
          rw [Nat.mod_eq_of_lt (by omega)]
          exact hm10

/-- C9 witness: the theorem applied to a concrete INSERT mutation and a
concrete one-token replay. -/
theorem c9_search_bounds_witness :
    (([5, 0] : List Nat).length ≤ 31 ∧ ∀ t ∈ ([5, 0] : List Nat), t < 10) ∧
    (stC4.move_sequence.length ≤ ([0] : List Nat).length ∧
      ∀ t ∈ stC4.move_sequence, t < 10) := by
  have h := c9_search_bounds
  exact ⟨h.1 [0] 1 0 5 0 0 [5, 0] (by decide) (by decide) (by decide) (by decide) (by decide),
    h.2 deckC2 emptyDeck emptyDeck [0] stC4 (by decide) (by decide)⟩


lemma annealStep_best (d1 d2 d3 : Deck) (acc : State × State) (p : StepDraws) :
    acc.2.points ≤ (annealStep d1 d2 d3 acc p).2.points ∧
    ((annealStep d1 d2 d3 acc p).2 = acc.2 ∨
      acc.2.points < (annealStep d1 d2 d3 acc p).2.points) := by
  cases hm : State.mutate acc.1.move_sequence p.mod p.pos p.tok p.px p.py with
  | none => simp [annealStep, hm]
  | some candSeq =>
    cases hp : State.play_out d1 d2 d3 State0 candSeq with
    | none => simp [annealStep, hm, hp]
    | some refined =>
      simp only [annealStep, hm, hp]
      by_cases hb : acc.2.points < refined.points
      · rw [if_pos hb]
        exact ⟨le_of_lt hb, .inr hb⟩
      · rw [if_neg hb]
        exact ⟨le_refl _, .inl rfl⟩

lemma foldl_annealStep_best (d1 d2 d3 : Deck) (trace : List StepDraws) :
    ∀ acc : State × State,
      acc.2.points ≤ (trace.foldl (annealStep d1 d2 d3) acc).2.points := by
  induction trace with
  | nil => intro acc; simp
  | cons p rest ih =>
    intro acc
    rw [List.foldl_cons]
    exact le_trans (annealStep_best d1 d2 d3 acc p).1 (ih _)

lemma play_randomly_mono (d1 d2 d3 : Deck) (trace : List StepDraws) (best : State) :
    best.points ≤ (play_randomly d1 d2 d3 trace best).points :=
  foldl_annealStep_best d1 d2 d3 trace (State0, best)

lemma foldl_points_mono {β : Type} (g : State → β → State)
    (hg : ∀ b tr, b.points ≤ (g b tr).points) :
    ∀ (l : List β) (b : State), b.points ≤ (l.foldl g b).points := by
  intro l
  induction l with
  | nil => intro b; simp
  | cons x rest ih =>
    intro b
    rw [List.foldl_cons]
    exact le_trans (hg b x) (ih _)

lemma play_single_setting_mono (d1 d2 d3 : Deck) (traces : List (List StepDraws))
    (best : State) : best.points ≤ (play_single_setting d1 d2 d3 traces best).points := by
  simp only [play_single_setting]
  exact foldl_points_mono _ (fun b tr => play_randomly_mono _ _ _ tr b) traces best

/-- C6: within one randomized deck completion the best state is reset
exactly once — play_randomized_deck discards the previous completion's
best and starts the ten runs from a fresh State — the best is updated only
when a refined state's points strictly exceed the current best points, and
best points are non-decreasing across each single run and across the whole
completion. -/
theorem c6_best_state :
    (∀ (prior1 prior2 : State) (d1 d2 d3 : Deck) (pool1 pool2 : List Card)
        (g : Nat → Nat) (n : Nat) (traces : List (List StepDraws)),
        play_randomized_deck prior1 d1 d2 d3 pool1 pool2 g n traces =
          play_randomized_deck prior2 d1 d2 d3 pool1 pool2 g n traces) ∧
    (∀ (d1 d2 d3 : Deck) (acc : State × State) (p : StepDraws),
        acc.2.points ≤ (annealStep d1 d2 d3 acc p).2.points ∧
        ((annealStep d1 d2 d3 acc p).2 = acc.2 ∨
          acc.2.points < (annealStep d1 d2 d3 acc p).2.points)) ∧
    (∀ (d1 d2 d3 : Deck) (trace : List StepDraws) (best : State),
        best.points ≤ (play_randomly d1 d2 d3 trace best).points) ∧
    (∀ (d1 d2 d3 : Deck) (traces : List (List StepDraws)) (best : State),
        best.points ≤ (play_single_setting d1 d2 d3 traces best).points) := by
  exact ⟨fun _ _ _ _ _ _ _ _ _ _ => rfl,
    fun d1 d2 d3 acc p => annealStep_best d1 d2 d3 acc p,
    fun d1 d2 d3 trace best => play_randomly_mono d1 d2 d3 trace best,
    fun d1 d2 d3 traces best => play_single_setting_mono d1 d2 d3 traces best⟩

lemma and_two_pow_sub_one_eq_mod (x n : Nat) : x &&& (2 ^ n - 1) = x % 2 ^ n := by
  apply Nat.eq_of_testBit_eq
  intro i
  rw [Nat.testBit_and, Nat.testBit_mod_two_pow, Nat.testBit_two_pow_sub_one]
  cases h : x.testBit i <;> simp [h]

lemma shiftRight_two_pow_sub_one (k j : Nat) : (2 ^ k - 1) >>> j = 2 ^ (k - j) - 1 := by
  apply Nat.eq_of_testBit_eq
  intro i
  rw [Nat.testBit_shiftRight, Nat.testBit_two_pow_sub_one, Nat.testBit_two_pow_sub_one]
  simp only [decide_eq_decide]
  omega

lemma or_two_pow_sub_one (k j : Nat) (h : j ≤ k) :
    (2 ^ k - 1) ||| (2 ^ j - 1) = 2 ^ k - 1 := by
  apply Nat.eq_of_testBit_eq
  intro i
  rw [Nat.testBit_or, Nat.testBit_two_pow_sub_one, Nat.testBit_two_pow_sub_one]
  by_cases h1 : i < j
  · have h2 : i < k := by omega
    simp [h1, h2]
  · simp [h1]

lemma smear_two_pow_sub_one (k : Nat) : smear (2 ^ k - 1) = 2 ^ k - 1 := by
  simp only [smear]
  rw [shiftRight_two_pow_sub_one, or_two_pow_sub_one k (k - 1) (by omega),
    shiftRight_two_pow_sub_one, or_two_pow_sub_one k (k - 2) (by omega),
    shiftRight_two_pow_sub_one, or_two_pow_sub_one k (k - 4) (by omega),
    shiftRight_two_pow_sub_one, or_two_pow_sub_one k (k - 8) (by omega),
    shiftRight_two_pow_sub_one, or_two_pow_sub_one k (k - 16) (by omega)]

lemma card_range_mul_filter_mod (n m y : Nat) (hy : y < n) :
    ((Finset.range (n * m)).filter fun r => r % n = y).card = m := by
  have hn : 0 < n := by omega
  have hb : ((Finset.range (n * m)).filter fun r => r % n = y).card =
      (Finset.range m).card := by
    apply Finset.card_bij (fun r _ => r / n)
    · intro r hr
      simp only [Finset.mem_filter, Finset.mem_range] at hr
      simp only [Finset.mem_range]
      exact Nat.div_lt_of_lt_mul (by omega)
    · intro r1 h1 r2 h2 he
      simp only [Finset.mem_filter, Finset.mem_range] at h1 h2
      have e1 := Nat.div_add_mod r1 n
      have e2 := Nat.div_add_mod r2 n
      rw [h1.2] at e1
      rw [h2.2] at e2
      rw [← e1, ← e2, he]
    · intro q hq
      simp only [Finset.mem_range] at hq
      refine ⟨n * q + y, ?_, ?_⟩
      · simp only [Finset.mem_filter, Finset.mem_range]
        constructor
        · calc n * q + y < n * q + n := by omega
            _ = n * (q + 1) := by ring
            _ ≤ n * m := Nat.mul_le_mul_left n (by omega)
        · rw [Nat.mul_add_mod]
          exact Nat.mod_eq_of_lt hy
      · rw [Nat.mul_add_div hn, Nat.div_eq_of_lt hy]
        omega
  rw [hb, Finset.card_range]

/-- C7: whenever the rejection loop of next_int(max) terminates it
returns a value in [0, max); when max is a power of two the computed mask
is exactly max - 1, the very first draw is accepted and the result is the
raw tempered word reduced to the low bits covering max - 1; and that
reduction maps exactly 2^(32-k) of the 2^32 possible raw words to each
output, so a uniform raw draw gives a uniform output. -/
theorem c7_next_int_bounded :
    (∀ (fuel : Nat) (s : Twister) (mx a : Nat) (s2 : Twister),
        1 ≤ mx → Twister.next_int_bounded fuel s mx = some (a, s2) → a < mx) ∧
    (∀ k : Nat, k ≤ 31 → smear (2 ^ k - 1) = 2 ^ k - 1) ∧
    (∀ (k : Nat) (s : Twister) (fuel : Nat), k ≤ 31 →
        Twister.next_int_bounded (fuel + 1) s (2 ^ k) =
          some (s.next_int.1 &&& (2 ^ k - 1), s.next_int.2)) ∧
    (∀ k y : Nat, k ≤ 31 → y < 2 ^ k →
        ((Finset.range (2 ^ 32)).filter fun r => r &&& smear (2 ^ k - 1) = y).card =
          2 ^ (32 - k)) := by
  have hmask : ∀ (r k : Nat), r &&& (2 ^ k - 1) < 2 ^ k := by
    intro r k
    have h1 : r &&& (2 ^ k - 1) ≤ 2 ^ k - 1 := Nat.and_le_right
    have h2 : 0 < 2 ^ k := by positivity
    omega
  refine ⟨?_, fun k _ => smear_two_pow_sub_one k, ?_, ?_⟩
  · intro fuel
    induction fuel with
    | zero => intro s mx a s2 _ h; exact Option.noConfusion h
    | succ fuel ih =>
      intro s mx a s2 hmx h
      rw [Twister.next_int_bounded] at h
      split_ifs at h with hge
      · exact ih s.next_int.2 mx a s2 hmx h
      · simp only [Option.some.injEq, Prod.mk.injEq] at h
        omega
  · intro k s fuel _
    rw [Twister.next_int_bounded, smear_two_pow_sub_one]
    rw [if_neg (by have := hmask s.next_int.1 k; omega)]
  · intro k y hk hy
    have h32 : (2 : Nat) ^ 32 = 2 ^ k * 2 ^ (32 - k) := by
      rw [← pow_add]
      congr 1
      omega
    have hfg : (Finset.range (2 ^ 32)).filter (fun r => r &&& smear (2 ^ k - 1) = y) =
        (Finset.range (2 ^ 32)).filter (fun r => r % 2 ^ k = y) := by
      apply Finset.filter_congr
      intro r _
      simp only [smear_two_pow_sub_one, and_two_pow_sub_one_eq_mod]
    rw [hfg, h32]
    exact card_range_mul_filter_mod _ _ _ hy

set_option maxRecDepth 4096 in
/-- C7 witness: the theorem applied at bound 3 with one accepted draw from
the concrete state twC8, at the power of two 1, and at the fiber of y = 1
for bound 4. -/
theorem c7_next_int_bounded_witness :
    (1 : Nat) < 3 ∧ smear (2 ^ 5 - 1) = 2 ^ 5 - 1 ∧
    Twister.next_int_bounded 1 twC8 (2 ^ 0) =
      some (twC8.next_int.1 &&& (2 ^ 0 - 1), twC8.next_int.2) ∧
    ((Finset.range (2 ^ 32)).filter fun r => r &&& smear (2 ^ 2 - 1) = 1).card = 2 ^ 30 := by
  have h := c7_next_int_bounded
  refine ⟨?_, h.2.1 5 (by omega), h.2.2.1 0 twC8 0 (by omega), h.2.2.2 2 1 (by omega) (by omega)⟩
  exact h.1 1 twC8 3 1 { tab := twC8.tab, ptr := 1 } (by omega) (by rfl)

set_option maxRecDepth 4096 in
/-- C8 counterexample: at a concrete PRNG state whose next tempered word
is 0x400091 (odd, high bit clear), next_float returns the word masked to
its low 31 bits, 0x400091 * 2^-31, which differs from the top 31 bits
scaled, (0x400091 >> 1) * 2^-31 — the claim's "top 31 bits" reading does
not match the code. -/
theorem c8_counterexample :
    twC8.next_float.1 ≠ (((twC8.next_int.1 >>> 1 : Nat) : ℚ) / 2 ^ 31) := by
  have hn : twC8.next_int.1 = 0x400091 := by decide
  have h0 : twC8.next_float.1 = (((twC8.next_int.1 &&& 0x7FFFFFFF) : Nat) : ℚ) / 2 ^ 31 := rfl
  have e1 : (0x400091 &&& 0x7FFFFFFF : Nat) = 0x400091 := by decide
  have e2 : (0x400091 >>> 1 : Nat) = 0x200048 := by decide
  rw [h0, hn, e1, e2]
  intro he
  rw [div_eq_div_iff (by norm_num) (by norm_num)] at he
  norm_num at he

/-- C8 (amended): next_float returns the low 31 bits of the next 32-bit
tempered output — the mask & 0x7FFFFFFF, not the top bits >> 1 — scaled by
2^-31, and (in exact arithmetic) the value always lies in [0, 1). -/
theorem c8_next_float (s : Twister) :
    s.next_float.1 = (((s.next_int.1 &&& 0x7FFFFFFF) : Nat) : ℚ) / 2 ^ 31 ∧
    0 ≤ s.next_float.1 ∧ s.next_float.1 < 1 := by
  have h0 : s.next_float.1 = (((s.next_int.1 &&& 0x7FFFFFFF) : Nat) : ℚ) / 2 ^ 31 := rfl
  refine ⟨h0, ?_, ?_⟩
  · rw [h0]
    positivity
  · rw [h0, div_lt_one (by positivity)]
    have hm : (s.next_int.1 &&& 0x7FFFFFFF) < 2 ^ 31 := by
      have h1 : s.next_int.1 &&& 0x7FFFFFFF ≤ 0x7FFFFFFF := Nat.and_le_right
      omega
    exact_mod_cast hm

/-- C8 witness: the amended theorem evaluated at the concrete state. -/
theorem c8_next_float_witness :
    twC8.next_float.1 = (((twC8.next_int.1 &&& 0x7FFFFFFF) : Nat) : ℚ) / 2 ^ 31 ∧
    0 ≤ twC8.next_float.1 ∧ twC8.next_float.1 < 1 := c8_next_float twC8

lemma perm_set_last_dropLast {α : Type} (d0 : α) (v : List α) (b : α) :
    ∀ (x : Nat) (hx : x < v.length), b = v.getLast?.getD d0 →
      (v[x] :: (v.set x b).dropLast).Perm v := by
  induction v with
  | nil => intro x hx _; simp at hx
  | cons c t ih =>
    intro x hx hb
    cases x with
    | zero =>
      by_cases htne : t = []
      · subst htne; simp
      · have hbt : b = t.getLast htne := by
          rw [hb, List.getLast?_eq_getLast_of_ne_nil (l := c :: t) (by simp)]
          rw [List.getLast_cons htne]
          rfl
        show (c :: (b :: t).dropLast).Perm (c :: t)
        rw [List.dropLast_cons_of_ne_nil htne]
        refine List.Perm.cons c ?_
        have he : t.dropLast ++ [b] = t := by
          rw [hbt]
          exact List.dropLast_append_getLast htne
        exact ((List.perm_append_singleton b t.dropLast).symm).trans (List.Perm.of_eq he)
    | succ j =>
      have hj : j < t.length := by simp at hx; omega
      have htne : t ≠ [] := by intro h; subst h; simp at hj
      have hbt : b = t.getLast?.getD d0 := by
        rw [hb, List.getLast?_eq_getLast_of_ne_nil (l := c :: t) (by simp),
          List.getLast?_eq_getLast_of_ne_nil htne, List.getLast_cons htne]
      have hsetne : t.set j b ≠ [] := by
        have hlen : (t.set j b).length = t.length := by simp
        intro h
        rw [h] at hlen
        simp at hlen
        omega
      show (t[j] :: ((c :: t).set (j + 1) b).dropLast).Perm (c :: t)
      have hset : (c :: t).set (j + 1) b = c :: t.set j b := rfl
      rw [hset, List.dropLast_cons_of_ne_nil hsetne]
      exact (List.Perm.swap c (t[j]) _).trans (List.Perm.cons c (ih j hj hbt))

lemma swapRemove_perm (v : List Card) (x : Nat) (hx : x < v.length) :
    ((swapRemove v x).1 :: (swapRemove v x).2).Perm v := by
  have hg : (swapRemove v x).1 = v[x] := by
    simp [swapRemove, List.getD_eq_getElem?_getD, List.getElem?_eq_getElem hx]
  show ((swapRemove v x).1 :: (v.set x (v.getLast?.getD defaultCard)).dropLast).Perm v
  rw [hg]
  exact perm_set_last_dropLast defaultCard v _ x hx rfl

lemma take_succ_set (l : List Card) (n : Nat) (a : Card) (h : n < l.length) :
    (l.set n a).take (n + 1) = l.take n ++ [a] := by
  rw [List.set_eq_take_cons_drop a h, List.take_append_eq_append_take, List.take_take]
  have h1 : (l.take n).length = n := by simp [List.length_take]; omega
  rw [h1]
  have h2 : min (n + 1) n = n := by omega
  rw [h2]
  simp

lemma fillTable_spec (g : Nat → Nat) (n : Nat) (d : Deck) (v : List Card) :
    d.table.length = 4 → d.table_sz ≤ 4 →
      (fillTable g n d v).1.table.length = 4 ∧
      (fillTable g n d v).1.table_sz ≤ 4 ∧
      (fillTable g n d v).1.q = d.q ∧
      (((fillTable g n d v).1.table.take (fillTable g n d v).1.table_sz : Multiset Card) +
          ((fillTable g n d v).2.1 : Multiset Card) =
        (d.table.take d.table_sz : Multiset Card) + (v : Multiset Card)) ∧
      ((fillTable g n d v).1.table_sz = 4 ∨ (fillTable g n d v).2.1 = []) := by
  induction n, d, v using fillTable.induct g with
  | case1 n d v h ih =>
    intro htl hts
    rw [fillTable, dif_pos h]
    obtain ⟨ih1, ih2, ih3, ih4, ih5⟩ := ih (by simpa using htl)
      (by show d.table_sz + 1 ≤ 4; omega)
    refine ⟨ih1, ih2, ih3, ?_, ih5⟩
    rw [ih4]
    have hxlt : g n % v.length < v.length := Nat.mod_lt _ (List.length_pos.mpr h.2)
    have htake : (d.table.set d.table_sz (swapRemove v (g n % v.length)).1).take
        (d.table_sz + 1) =
        d.table.take d.table_sz ++ [(swapRemove v (g n % v.length)).1] :=
      take_succ_set _ _ _ (by omega)
    rw [htake]
    have hperm : (((swapRemove v (g n % v.length)).1 ::
        (swapRemove v (g n % v.length)).2 : List Card) : Multiset Card) =
        (v : Multiset Card) :=
      Multiset.coe_eq_coe.mpr (swapRemove_perm v _ hxlt)
    calc ((d.table.take d.table_sz ++ [(swapRemove v (g n % v.length)).1] : List Card) :
            Multiset Card) + ((swapRemove v (g n % v.length)).2 : Multiset Card)
        = (d.table.take d.table_sz : Multiset Card) +
            (((swapRemove v (g n % v.length)).1 ::
              (swapRemove v (g n % v.length)).2 : List Card) : Multiset Card) := by
          simp only [Multiset.coe_add, Multiset.coe_eq_coe, List.append_assoc,
            List.singleton_append]
      _ = (d.table.take d.table_sz : Multiset Card) + (v : Multiset Card) := by rw [hperm]
  | case2 n d v h =>
    intro htl hts
    rw [fillTable, dif_neg h]
    push_neg at h
    refine ⟨htl, hts, rfl, rfl, ?_⟩
    by_cases h4 : d.table_sz < 4
    · exact .inr (h h4)
    · exact .inl (by show d.table_sz = 4; omega)

lemma fillQ_spec (g : Nat → Nat) (n desired : Nat) (d : Deck) (v : List Card) :
    (fillQ g n desired d v).1.table = d.table ∧
    (fillQ g n desired d v).1.table_sz = d.table_sz ∧
    (((fillQ g n desired d v).1.q : Multiset Card) +
        ((fillQ g n desired d v).2.1 : Multiset Card) =
      (d.q : Multiset Card) + (v : Multiset Card)) ∧
    ((fillQ g n desired d v).1.q.length = max d.q.length desired ∨
      (fillQ g n desired d v).2.1 = []) := by
  induction n, desired, d, v using fillQ.induct g with
  | case1 n desired d v h ih =>
    rw [fillQ, dif_pos h]
    obtain ⟨ih1, ih2, ih3, ih4⟩ := ih
    refine ⟨ih1, ih2, ?_, ?_⟩
    · rw [ih3]
      have hxlt : g n % v.length < v.length := Nat.mod_lt _ (List.length_pos.mpr h.2)
      have hperm : (((swapRemove v (g n % v.length)).1 ::
          (swapRemove v (g n % v.length)).2 : List Card) : Multiset Card) =
          (v : Multiset Card) :=
        Multiset.coe_eq_coe.mpr (swapRemove_perm v _ hxlt)
      calc ((d.q ++ [(swapRemove v (g n % v.length)).1] : List Card) : Multiset Card) +
            ((swapRemove v (g n % v.length)).2 : Multiset Card)
          = (d.q : Multiset Card) + (((swapRemove v (g n % v.length)).1 ::
              (swapRemove v (g n % v.length)).2 : List Card) : Multiset Card) := by
            simp only [Multiset.coe_add, Multiset.coe_eq_coe, List.append_assoc,
              List.singleton_append]
        _ = (d.q : Multiset Card) + (v : Multiset Card) := by rw [hperm]
    · rcases ih4 with h1 | h1
      · refine .inl ?_
        rw [h1]
        simp only [List.length_append, List.length_cons, List.length_nil]
        omega
      · exact .inr h1
  | case2 n desired d v h =>
    rw [fillQ, dif_neg h]
    push_neg at h
    refine ⟨rfl, rfl, rfl, ?_⟩
    by_cases hq : d.q.length < desired
    · exact .inr (h hq)
    · exact .inl (by show d.q.length = max d.q.length desired; omega)

lemma fillQ_nil (g : Nat → Nat) (n desired : Nat) (d : Deck) :
    fillQ g n desired d [] = (d, [], n) := by
  rw [fillQ]
  simp

/-- C10: fill_up_randomly adds to the deck only cards drawn from the
supplied pool, each pool card at most once — the live deck contents plus
the leftover pool form the same multiset as before — and it stops exactly
when the table holds 4 cards and the backlog has reached the target size,
or when the pool is exhausted. -/
theorem c10_fill_up_randomly (d : Deck) (desired : Nat) (v : List Card)
    (g : Nat → Nat) (n : Nat) (htl : d.table.length = 4) (hts : d.table_sz ≤ 4) :
    (((d.fill_up_randomly desired v g n).1.table.take
        (d.fill_up_randomly desired v g n).1.table_sz : Multiset Card) +
      ((d.fill_up_randomly desired v g n).1.q : Multiset Card) +
      ((d.fill_up_randomly desired v g n).2.1 : Multiset Card) =
      (d.table.take d.table_sz : Multiset Card) + (d.q : Multiset Card) +
        (v : Multiset Card)) ∧
    (((d.fill_up_randomly desired v g n).1.table_sz = 4 ∧
        (d.fill_up_randomly desired v g n).1.q.length = max d.q.length desired) ∨
      (d.fill_up_randomly desired v g n).2.1 = []) := by
  obtain ⟨t1, t2, t3, t4, t5⟩ := fillTable_spec g n d v htl hts
  obtain ⟨q1, q2, q3, q4⟩ := fillQ_spec g (fillTable g n d v).2.2 desired
    (fillTable g n d v).1 (fillTable g n d v).2.1
  rw [Deck.fill_up_randomly]
  constructor
  · rw [q1, q2, t3] at *
    calc ((fillTable g n d v).1.table.take (fillTable g n d v).1.table_sz : Multiset Card) +
          ((fillQ g (fillTable g n d v).2.2 desired (fillTable g n d v).1
            (fillTable g n d v).2.1).1.q : Multiset Card) +
          ((fillQ g (fillTable g n d v).2.2 desired (fillTable g n d v).1
            (fillTable g n d v).2.1).2.1 : Multiset Card)
        = ((fillTable g n d v).1.table.take (fillTable g n d v).1.table_sz : Multiset Card) +
            ((d.q : Multiset Card) + ((fillTable g n d v).2.1 : Multiset Card)) := by
          rw [add_assoc, q3, t3]
      _ = (d.table.take d.table_sz : Multiset Card) + (d.q : Multiset Card) +
            (v : Multiset Card) := by
          rw [← add_assoc]
          rw [add_right_comm, t4, add_right_comm]
  · rcases t5 with ht | ht
    · rcases q4 with hq | hq
      · exact .inl ⟨by rw [q2]; exact ht, by rw [hq, t3]⟩
      · exact .inr hq
    · rw [ht, fillQ_nil]
      exact .inr rfl

/-- C10 witness: the theorem applied to a concrete one-card pool. -/
theorem c10_fill_up_randomly_witness :
    (((emptyDeck.fill_up_randomly 1 [cardC2] (fun _ => 0) 0).1.table.take
        (emptyDeck.fill_up_randomly 1 [cardC2] (fun _ => 0) 0).1.table_sz : Multiset Card) +
      ((emptyDeck.fill_up_randomly 1 [cardC2] (fun _ => 0) 0).1.q : Multiset Card) +
      ((emptyDeck.fill_up_randomly 1 [cardC2] (fun _ => 0) 0).2.1 : Multiset Card) =
      (emptyDeck.table.take emptyDeck.table_sz : Multiset Card) +
        (emptyDeck.q : Multiset Card) + ([cardC2] : Multiset Card)) ∧
    (((emptyDeck.fill_up_randomly 1 [cardC2] (fun _ => 0) 0).1.table_sz = 4 ∧
        (emptyDeck.fill_up_randomly 1 [cardC2] (fun _ => 0) 0).1.q.length =
          max emptyDeck.q.length 1) ∨
      (emptyDeck.fill_up_randomly 1 [cardC2] (fun _ => 0) 0).2.1 = []) :=
  c10_fill_up_randomly emptyDeck 1 [cardC2] (fun _ => 0) 0 (by decide) (by decide)
end Splendor
